import Mathlib

/-!
Shallow embedding of the influent.rs line-protocol encoder
(src/measurement.rs, src/serializer/line.rs, src/serializer/mod.rs).

Text is modelled as a list of bytes (`List Nat`), since the Rust code
iterates `str::as_bytes()` and compares `&str` keys byte-lexicographically
(the `Ord` used by `BTreeMap<&str, _>`).  `BTreeMap` is modelled as an
association list kept strictly sorted by `bytesLt`, with `insertSorted`
playing the role of `BTreeMap::insert` (replacing the value on an equal
key).  Machine integers (`i64`) are modelled as `Int`; the claims exercise
no overflow.
-/

namespace Influent

/-- ASCII/UTF-8 bytes of a Lean string literal; all literals used below are
ASCII, where code points and bytes coincide. -/
def str (s : String) : List Nat := s.data.map Char.toNat

/-- Byte-lexicographic order on byte strings: the `Ord` instance of Rust
`&str` / `[u8]` used by `BTreeMap<&str, _>` iteration order. -/
def bytesLt : List Nat → List Nat → Bool
  | [], [] => false
  | [], _ :: _ => true
  | _ :: _, [] => false
  | a :: as, b :: bs => if a < b then true else if b < a then false else bytesLt as bs

/-- `BTreeMap::insert` on a strictly `bytesLt`-sorted association list:
insert before the first strictly larger key, replace on an equal key. -/
def insertSorted (k : List Nat) (v : α) : List (List Nat × α) → List (List Nat × α)
  | [] => [(k, v)]
  | (k', v') :: rest =>
    if bytesLt k k' then (k, v) :: (k', v') :: rest
    else if k = k' then (k, v) :: rest
    else (k', v') :: insertSorted k v rest

/-- `BTreeMap::get`: first association with the given key. -/
def lookup (k : List Nat) : List (List Nat × α) → Option α
  | [] => none
  | (k', v') :: rest => if k = k' then some v' else lookup k rest

/-- Modelled from the spec: Rust's `f64::to_string` (the shortest
round-trippable decimal text of an `f64`, e.g. `10` rather than `10.0` for
an integral value) lives in the Rust standard library, outside this
repository.  A finite `f64` is represented here by that shortest decimal
itself: an integer mantissa together with the number of digits after the
decimal point, so `10.0` is `⟨10, 0⟩` and `-3.14` is `⟨-314, 2⟩`. -/
structure F64 where
  mantissa : Int
  fracDigits : Nat
deriving DecidableEq

/-- `measurement.rs`: `enum Value<S>` — a field's value. -/
inductive Value
  /-- `Value::String` -/
  | string (s : List Nat)
  /-- `Value::Float` -/
  | float (f : F64)
  /-- `Value::Integer` -/
  | integer (i : Int)
  /-- `Value::Boolean` -/
  | boolean (b : Bool)
deriving DecidableEq

/-- `measurement.rs`: `struct Measurement` — key, optional timestamp, field
map and tag map (both `BTreeMap`, modelled as sorted association lists). -/
structure Measurement where
  key : List Nat
  timestamp : Option Int
  fields : List (List Nat × Value)
  tags : List (List Nat × List Nat)
deriving DecidableEq

/-- `Measurement::new`. -/
def Measurement.new (key : List Nat) : Measurement :=
  { key := key, timestamp := none, fields := [], tags := [] }

/-- `Measurement::add_field`: `self.fields.insert(field, value)`. -/
def add_field (m : Measurement) (field : List Nat) (value : Value) : Measurement :=
  { m with fields := insertSorted field value m.fields }

/-- `Measurement::add_tag`: `self.tags.insert(tag, value)`. -/
def add_tag (m : Measurement) (tag : List Nat) (value : List Nat) : Measurement :=
  { m with tags := insertSorted tag value m.tags }

/-- `Measurement::set_timestamp`. -/
def set_timestamp (m : Measurement) (timestamp : Int) : Measurement :=
  { m with timestamp := some timestamp }

/-- One step of building a measurement: a single mutating call. -/
inductive Op
  | addField (name : List Nat) (v : Value)
  | addTag (name : List Nat) (v : List Nat)
  | setTs (t : Int)

/-- Apply one mutating call. -/
def applyOp (m : Measurement) : Op → Measurement
  | .addField n v => add_field m n v
  | .addTag n v => add_tag m n v
  | .setTs t => set_timestamp m t

/-- A measurement built from `Measurement::new(key)` by a sequence of calls. -/
def build (key : List Nat) (ops : List Op) : Measurement :=
  ops.foldl applyOp (Measurement.new key)

/-- Per-byte escape chunk of `write_escaped_key` (measurement-key profile):
`,` ↦ `\,`, space ↦ `\ `, anything else copied. -/
def escKeyByte (b : Nat) : List Nat :=
  if b = 44 then [92, 44]
  else if b = 32 then [92, 32]
  else [b]

/-- Per-byte escape chunk of `write_escaped_tag` (tag/field-name and
tag-value profile): `,` ↦ `\,`, space ↦ `\ `, `=` ↦ `\ `, else copied. -/
def escTagByte (b : Nat) : List Nat :=
  if b = 44 then [92, 44]
  else if b = 32 then [92, 32]
  else if b = 61 then [92, 32]
  else [b]

/-- Per-byte escape chunk of the string-value loop in
`write_escaped_value`: `"` ↦ `\"`, anything else copied. -/
def escQuoteByte (b : Nat) : List Nat :=
  if b = 34 then [92, 34] else [b]

/-- The byte loop shared by the three escapers: emit the chunk for each
input byte in order. -/
def escapeWith (f : Nat → List Nat) : List Nat → List Nat
  | [] => []
  | b :: rest => f b ++ escapeWith f rest

/-- `LineSerializer::write_escaped_key`. -/
def write_escaped_key (key : List Nat) : List Nat := escapeWith escKeyByte key

/-- `LineSerializer::write_escaped_tag`. -/
def write_escaped_tag (tag : List Nat) : List Nat := escapeWith escTagByte tag

/-- The quote-escaping loop inside the `Value::String` arm of
`write_escaped_value`. -/
def escape_quote (s : List Nat) : List Nat := escapeWith escQuoteByte s

/-- Decimal digits of a natural number, most significant first, as ASCII
bytes; `fuel` bounds the recursion and is always sufficient at `n + 1`. -/
def natToDigitsAux : Nat → Nat → List Nat
  | 0, _ => []
  | fuel + 1, n =>
    if n < 10 then [48 + n]
    else natToDigitsAux fuel (n / 10) ++ [48 + n % 10]

/-- Decimal ASCII text of a natural number. -/
def natToDigits (n : Nat) : List Nat := natToDigitsAux (n + 1) n

/-- Decimal ASCII text of an integer (Rust `i64::to_string`). -/
def intToBytes (i : Int) : List Nat :=
  if i < 0 then 45 :: natToDigits i.natAbs else natToDigits i.toNat

/-- Modelled from the spec: rendering of the shortest-decimal `f64`
representation carried by `F64` — digits only when integral, otherwise a
decimal point with `fracDigits` fractional digits. -/
def floatToBytes (f : F64) : List Nat :=
  if f.fracDigits = 0 then intToBytes f.mantissa
  else
    (if f.mantissa < 0 then [45] else []) ++
      natToDigits (f.mantissa.natAbs / 10 ^ f.fracDigits) ++
      46 :: [] ++
      List.replicate (f.fracDigits - (natToDigits (f.mantissa.natAbs % 10 ^ f.fracDigits)).length) 48 ++
      natToDigits (f.mantissa.natAbs % 10 ^ f.fracDigits)

/-- `LineSerializer::write_escaped_value`: quoted/escaped string, decimal
integer with `i` suffix, float text, `t`/`f` boolean. -/
def write_escaped_value : Value → List Nat
  | .string s => 34 :: (escape_quote s ++ [34])
  | .integer i => intToBytes i ++ [105]
  | .float f => floatToBytes f
  | .boolean b => if b then [116] else [102]

/-- One iteration of the tag loop in `serialize_buf`: write `,`, the
escaped tag name, `=`, the escaped tag value. -/
def tagStep (b : List Nat) (tv : List Nat × List Nat) : List Nat :=
  b ++ [44] ++ write_escaped_tag tv.1 ++ [61] ++ write_escaped_tag tv.2

/-- One iteration of the field loop in `serialize_buf`: write a space for
the first field and `,` otherwise, then the escaped field name, `=`, the
formatted value; the `Bool` is the `first` flag. -/
def fieldStep (p : List Nat × Bool) (fv : List Nat × Value) : List Nat × Bool :=
  (p.1 ++ (if p.2 then [32] else [44]) ++ write_escaped_tag fv.1 ++ [61] ++
    write_escaped_value fv.2, false)

/-- `LineSerializer::serialize_buf`: escaped key; for each tag (in map
order) `,` name `=` value with the tag profile; fields (in map order) with
a leading space for the first and `,` for the rest; optional space and
decimal timestamp. -/
def serialize_buf (m : Measurement) : List Nat :=
  let buf := write_escaped_key m.key
  let buf := m.tags.foldl tagStep buf
  let bufFirst := m.fields.foldl fieldStep (buf, true)
  match m.timestamp with
  | some ts => bufFirst.1 ++ [32] ++ intToBytes ts
  | none => bufFirst.1

/-- State of the UTF-8 validation automaton: `ok` between code points,
the others inside a multi-byte sequence (named by the continuation bytes
still expected and any constraint on the next byte), `err` absorbing. -/
inductive Utf8State
  | ok
  | one
  | two
  | twoE0
  | twoED
  | three
  | threeF0
  | threeF4
  | err
deriving DecidableEq

/-- One byte of UTF-8 validation (RFC 3629 table), as checked by Rust's
`String::from_utf8`. -/
def utf8step (q : Utf8State) (b : Nat) : Utf8State :=
  match q with
  | .ok =>
    if b < 128 then .ok
    else if 194 ≤ b ∧ b ≤ 223 then .one
    else if b = 224 then .twoE0
    else if b = 237 then .twoED
    else if 224 ≤ b ∧ b ≤ 239 then .two
    else if b = 240 then .threeF0
    else if b = 244 then .threeF4
    else if 240 ≤ b ∧ b ≤ 244 then .three
    else .err
  | .one => if 128 ≤ b ∧ b ≤ 191 then .ok else .err
  | .two => if 128 ≤ b ∧ b ≤ 191 then .one else .err
  | .twoE0 => if 160 ≤ b ∧ b ≤ 191 then .one else .err
  | .twoED => if 128 ≤ b ∧ b ≤ 159 then .one else .err
  | .three => if 128 ≤ b ∧ b ≤ 191 then .two else .err
  | .threeF0 => if 144 ≤ b ∧ b ≤ 191 then .two else .err
  | .threeF4 => if 128 ≤ b ∧ b ≤ 143 then .two else .err
  | .err => .err

/-- UTF-8 validity of a byte sequence: the automaton run from `ok` ends in
`ok` (no truncated sequence, no stray or malformed byte). -/
def utf8check (l : List Nat) : Bool := l.foldl utf8step .ok == .ok

/-- `String::from_utf8(v).unwrap()` in `serialize`, modelled as `Option`:
`some` when the buffer is valid UTF-8, `none` for the panic. -/
def serialize (m : Measurement) : Option (List Nat) :=
  if utf8check (serialize_buf m) then some (serialize_buf m) else none


/-! ### Order lemmas for `bytesLt` -/

theorem bytesLt_irrefl : ∀ a, bytesLt a a = false
  | [] => rfl
  | _ :: as => by simp [bytesLt, bytesLt_irrefl as]

theorem bytesLt_asymm : ∀ a b, bytesLt a b = true → bytesLt b a = false
  | [], [] => by simp [bytesLt]
  | [], _ :: _ => by simp [bytesLt]
  | _ :: _, [] => by simp [bytesLt]
  | a :: as, b :: bs => by
    by_cases hab : a < b
    · have hba : ¬ b < a := by omega
      simp [bytesLt, hab, hba]
    · by_cases hba : b < a
      · simp [bytesLt, hab, hba]
      · simp [bytesLt, hab, hba]
        exact bytesLt_asymm as bs

theorem bytesLt_trans : ∀ a b c, bytesLt a b = true → bytesLt b c = true → bytesLt a c = true
  | [], [], _ => by simp [bytesLt]
  | [], _ :: _, [] => by simp [bytesLt]
  | [], _ :: _, _ :: _ => by simp [bytesLt]
  | _ :: _, [], _ => by simp [bytesLt]
  | _ :: _, _ :: _, [] => by simp [bytesLt]
  | a :: as, b :: bs, c :: cs => by
    intro h1 h2
    simp only [bytesLt] at h1 h2 ⊢
    by_cases hab : a < b
    · by_cases hbc : b < c
      · have hac : a < c := by omega
        rw [if_pos hac]
      · rw [if_neg hbc] at h2
        by_cases hcb : c < b
        · rw [if_pos hcb] at h2; simp at h2
        · rw [if_neg hcb] at h2
          have hbceq : b = c := by omega
          subst hbceq
          rw [if_pos hab]
    · rw [if_neg hab] at h1
      by_cases hba : b < a
      · rw [if_pos hba] at h1; simp at h1
      · rw [if_neg hba] at h1
        have habeq : a = b := by omega
        subst habeq
        by_cases hbc : a < c
        · rw [if_pos hbc]
        · rw [if_neg hbc] at h2 ⊢
          by_cases hcb : c < a
          · rw [if_pos hcb] at h2; simp at h2
          · rw [if_neg hcb] at h2 ⊢
            exact bytesLt_trans as bs cs h1 h2

theorem bytesLt_total : ∀ a b, bytesLt a b = false → a ≠ b → bytesLt b a = true
  | [], [] => by simp
  | [], _ :: _ => by simp [bytesLt]
  | _ :: _, [] => by simp [bytesLt]
  | a :: as, b :: bs => by
    intro h1 hne
    simp only [bytesLt] at h1 ⊢
    by_cases hab : a < b
    · rw [if_pos hab] at h1; simp at h1
    · rw [if_neg hab] at h1
      by_cases hba : b < a
      · rw [if_pos hba]
      · rw [if_neg hba] at h1
        have habeq : a = b := by omega
        have hne' : as ≠ bs := fun h => hne (by rw [habeq, h])
        rw [if_neg hba, if_neg hab]
        exact bytesLt_total as bs h1 hne'

/-! ### The `BTreeMap` invariant: keys strictly ascending -/

/-- Keys of an association list are pairwise strictly ascending in
byte-lexicographic order — the `BTreeMap` iteration-order invariant. -/
def SortedKeys (l : List (List Nat × α)) : Prop :=
  l.Pairwise (fun p q => bytesLt p.1 q.1 = true)

theorem mem_insertSorted {k : List Nat} {v : α} :
    ∀ {l : List (List Nat × α)} {p}, p ∈ insertSorted k v l → p = (k, v) ∨ p ∈ l := by
  intro l
  induction l with
  | nil => intro p hp; simp [insertSorted] at hp; exact Or.inl hp
  | cons hd tl ih =>
    intro p hp
    obtain ⟨k', v'⟩ := hd
    simp only [insertSorted] at hp
    by_cases h1 : bytesLt k k' = true
    · rw [if_pos h1] at hp
      rcases List.mem_cons.mp hp with h | h
      · exact Or.inl h
      · exact Or.inr h
    · rw [if_neg h1] at hp
      by_cases h2 : k = k'
      · rw [if_pos h2] at hp
        rcases List.mem_cons.mp hp with h | h
        · exact Or.inl h
        · exact Or.inr (List.mem_cons_of_mem _ h)
      · rw [if_neg h2] at hp
        rcases List.mem_cons.mp hp with h | h
        · exact Or.inr (List.mem_cons.mpr (Or.inl h))
        · rcases ih h with h' | h'
          · exact Or.inl h'
          · exact Or.inr (List.mem_cons_of_mem _ h')

theorem sortedKeys_insertSorted {k : List Nat} {v : α} :
    ∀ {l : List (List Nat × α)}, SortedKeys l → SortedKeys (insertSorted k v l) := by
  intro l
  induction l with
  | nil => intro _; simp [insertSorted, SortedKeys]
  | cons hd tl ih =>
    intro hs
    obtain ⟨k', v'⟩ := hd
    rw [SortedKeys, List.pairwise_cons] at hs
    obtain ⟨hhead, htail⟩ := hs
    simp only [insertSorted]
    by_cases h1 : bytesLt k k' = true
    · rw [if_pos h1]
      rw [SortedKeys, List.pairwise_cons]
      constructor
      · intro p hp
        rcases List.mem_cons.mp hp with h | h
        · rw [h]; exact h1
        · exact bytesLt_trans _ _ _ h1 (hhead p h)
      · rw [List.pairwise_cons]
        exact ⟨hhead, htail⟩
    · rw [if_neg h1]
      by_cases h2 : k = k'
      · rw [if_pos h2]
        rw [SortedKeys, List.pairwise_cons]
        constructor
        · intro p hp
          rw [h2]
          exact hhead p hp
        · exact htail
      · rw [if_neg h2]
        rw [SortedKeys, List.pairwise_cons]
        constructor
        · intro p hp
          rcases mem_insertSorted hp with h | h
          · rw [h]
            exact bytesLt_total _ _ (Bool.not_eq_true _ ▸ h1) h2
          · exact hhead p h
        · exact ih htail

theorem sortedKeys_build (key : List Nat) (ops : List Op) :
    SortedKeys (build key ops).fields ∧ SortedKeys (build key ops).tags := by
  suffices h : ∀ (ops : List Op) (m : Measurement), SortedKeys m.fields → SortedKeys m.tags →
      SortedKeys (ops.foldl applyOp m).fields ∧ SortedKeys (ops.foldl applyOp m).tags by
    exact h ops (Measurement.new key) (by simp [Measurement.new, SortedKeys])
      (by simp [Measurement.new, SortedKeys])
  intro ops
  induction ops with
  | nil => intro m hf ht; exact ⟨hf, ht⟩
  | cons op rest ih =>
    intro m hf ht
    cases op with
    | addField n v =>
      exact ih _ (sortedKeys_insertSorted hf) ht
    | addTag n v =>
      exact ih _ hf (sortedKeys_insertSorted ht)
    | setTs t =>
      exact ih _ hf ht

/-- Strictly sorted association lists with the same members are equal. -/
theorem sorted_eq_of_mem_iff :
    ∀ {l1 l2 : List (List Nat × α)}, SortedKeys l1 → SortedKeys l2 →
      (∀ p, p ∈ l1 ↔ p ∈ l2) → l1 = l2 := by
  intro l1
  induction l1 with
  | nil =>
    intro l2 _ _ hmem
    cases l2 with
    | nil => rfl
    | cons b t2 => exact absurd ((hmem b).mpr (List.mem_cons_self _ _)) (List.not_mem_nil b)
  | cons a t1 ih =>
    intro l2 hs1 hs2 hmem
    cases l2 with
    | nil => exact absurd ((hmem a).mp (List.mem_cons_self _ _)) (List.not_mem_nil a)
    | cons b t2 =>
      rw [SortedKeys, List.pairwise_cons] at hs1 hs2
      obtain ⟨hhead1, htail1⟩ := hs1
      obtain ⟨hhead2, htail2⟩ := hs2
      have hab : a ∈ b :: t2 := (hmem a).mp (List.mem_cons_self _ _)
      have hba : b ∈ a :: t1 := (hmem b).mpr (List.mem_cons_self _ _)
      have heq : a = b := by
        rcases List.mem_cons.mp hab with h | h
        · exact h
        · rcases List.mem_cons.mp hba with h' | h'
          · exact h'.symm
          · have l1 := hhead2 a h
            have l2 := hhead1 b h'
            exact absurd l1 (by rw [bytesLt_asymm _ _ l2]; simp)
      subst heq
      have htmem : ∀ p, p ∈ t1 ↔ p ∈ t2 := by
        intro p
        constructor
        · intro hp
          rcases List.mem_cons.mp ((hmem p).mp (List.mem_cons_of_mem _ hp)) with h | h
          · subst h
            exact absurd (hhead1 p hp) (by rw [bytesLt_irrefl]; simp)
          · exact h
        · intro hp
          rcases List.mem_cons.mp ((hmem p).mpr (List.mem_cons_of_mem _ hp)) with h | h
          · subst h
            exact absurd (hhead2 p hp) (by rw [bytesLt_irrefl]; simp)
          · exact h
      rw [ih htail1 htail2 htmem]

/-! ### Structure of the serializer output -/

/-- The bytes a single tag contributes: `,` name `=` value, escaped. -/
def tagEntry (tv : List Nat × List Nat) : List Nat :=
  44 :: (write_escaped_tag tv.1 ++ 61 :: write_escaped_tag tv.2)

/-- The bytes a single field contributes, without its separator:
name `=` value. -/
def fieldEntry (fv : List Nat × Value) : List Nat :=
  write_escaped_tag fv.1 ++ 61 :: write_escaped_value fv.2

/-- The whole field section: empty for no fields, otherwise one space then
the comma-joined field entries. -/
def fieldsPart : List (List Nat × Value) → List Nat
  | [] => []
  | fv :: rest => 32 :: (fieldEntry fv ++ rest.flatMap (fun x => 44 :: fieldEntry x))

/-- The timestamp section: empty, or one space then the decimal text. -/
def tsPart : Option Int → List Nat
  | some ts => 32 :: intToBytes ts
  | none => []

theorem tags_foldl_eq (l : List (List Nat × List Nat)) :
    ∀ buf, l.foldl tagStep buf = buf ++ l.flatMap tagEntry := by
  induction l with
  | nil => intro buf; simp
  | cons tv rest ih =>
    intro buf
    simp only [List.foldl_cons, List.flatMap_cons, ih, tagStep, tagEntry]
    simp [List.append_assoc]

theorem fields_foldl_false (l : List (List Nat × Value)) :
    ∀ buf, (l.foldl fieldStep (buf, false)).1 = buf ++ l.flatMap (fun x => 44 :: fieldEntry x) := by
  induction l with
  | nil => intro buf; simp
  | cons fv rest ih =>
    intro buf
    simp only [List.foldl_cons, List.flatMap_cons]
    rw [show fieldStep (buf, false) fv =
        (buf ++ [44] ++ write_escaped_tag fv.1 ++ [61] ++ write_escaped_value fv.2, false) from rfl]
    rw [ih]
    simp [fieldEntry, List.append_assoc]

theorem fields_foldl_eq (l : List (List Nat × Value)) (buf : List Nat) :
    (l.foldl fieldStep (buf, true)).1 = buf ++ fieldsPart l := by
  cases l with
  | nil => simp [fieldsPart]
  | cons fv rest =>
    simp only [List.foldl_cons, fieldsPart]
    rw [show fieldStep (buf, true) fv =
        (buf ++ [32] ++ write_escaped_tag fv.1 ++ [61] ++ write_escaped_value fv.2, false) from rfl]
    rw [fields_foldl_false]
    simp [fieldEntry, List.append_assoc]

/-- `serialize_buf` decomposed into its four sections. -/
theorem serialize_buf_eq (m : Measurement) :
    serialize_buf m =
      write_escaped_key m.key ++ m.tags.flatMap tagEntry ++ fieldsPart m.fields ++
        tsPart m.timestamp := by
  simp only [serialize_buf]
  rw [tags_foldl_eq, fields_foldl_eq]
  cases m.timestamp with
  | some ts => simp [tsPart, List.append_assoc]
  | none => simp [tsPart]

/-! ### The escapers distribute over concatenation -/

theorem escapeWith_append (f : Nat → List Nat) :
    ∀ s t, escapeWith f (s ++ t) = escapeWith f s ++ escapeWith f t := by
  intro s t
  induction s with
  | nil => simp [escapeWith]
  | cons b rest ih => simp [escapeWith, ih]

/-! ### Reversibility of the escape profiles -/

/-- Is this byte one that the profile writes as a backslash pair? -/
def keySpecial (c : Nat) : Bool := c == 44 || c == 32

/-- The byte the string-value profile writes as a backslash pair. -/
def quoteSpecial (c : Nat) : Bool := c == 34

/-- Generic un-escaper: a backslash followed by a special byte decodes to
that byte; everything else is copied. -/
def unescapeBy (special : Nat → Bool) : List Nat → List Nat
  | [] => []
  | [b] => [b]
  | b :: c :: rest =>
    if b = 92 ∧ special c then c :: unescapeBy special rest
    else b :: unescapeBy special (c :: rest)

/-- Un-escaper for the measurement-key profile. -/
def unescape_key (s : List Nat) : List Nat := unescapeBy keySpecial s

/-- Un-escaper for the tag/field-name and tag-value profile (a `\ ` pair
can only decode to one byte, which is what breaks `=`). -/
def unescape_tag (s : List Nat) : List Nat := unescapeBy keySpecial s

/-- Un-escaper for the string-value quote profile. -/
def unescape_quote (s : List Nat) : List Nat := unescapeBy quoteSpecial s

theorem escapeWith_eq_nil (f : Nat → List Nat) :
    ∀ t, (∀ b ∈ t, f b ≠ []) → escapeWith f t = [] → t = [] := by
  intro t hne h
  cases t with
  | nil => rfl
  | cons b rest =>
    simp only [escapeWith] at h
    rcases List.append_eq_nil.mp h with ⟨h1, _⟩
    exact absurd h1 (hne b (List.mem_cons_self _ _))

theorem escapeWith_head_not_special (f : Nat → List Nat) (special : Nat → Bool)
    (h92 : special 92 = false) :
    ∀ t, (∀ b ∈ t, (f b = [92, b] ∧ special b = true) ∨ (f b = [b] ∧ special b = false)) →
      ∀ c r, escapeWith f t = c :: r → special c = false := by
  intro t hcond c r h
  cases t with
  | nil => simp [escapeWith] at h
  | cons b rest =>
    simp only [escapeWith] at h
    rcases hcond b (List.mem_cons_self _ _) with ⟨hf, _⟩ | ⟨hf, hs⟩
    · rw [hf] at h
      simp at h
      rw [← h.1]
      exact h92
    · rw [hf] at h
      simp at h
      rw [← h.1]
      exact hs

theorem unescapeBy_escapeWith (f : Nat → List Nat) (special : Nat → Bool)
    (h92 : special 92 = false) :
    ∀ s, (∀ b ∈ s, (f b = [92, b] ∧ special b = true) ∨ (f b = [b] ∧ special b = false)) →
      unescapeBy special (escapeWith f s) = s := by
  intro s
  induction s with
  | nil => intro _; rfl
  | cons b t ih =>
    intro hcond
    have hb := hcond b (List.mem_cons_self _ _)
    have hcondt : ∀ x ∈ t, (f x = [92, x] ∧ special x = true) ∨ (f x = [x] ∧ special x = false) :=
      fun x hx => hcond x (List.mem_cons_of_mem _ hx)
    simp only [escapeWith]
    rcases hb with ⟨hf, hs⟩ | ⟨hf, hs⟩
    · rw [hf]
      show unescapeBy special (92 :: b :: escapeWith f t) = b :: t
      rw [unescapeBy, if_pos ⟨rfl, hs⟩, ih hcondt]
    · rw [hf]
      show unescapeBy special (b :: escapeWith f t) = b :: t
      cases het : escapeWith f t with
      | nil =>
        have ht : t = [] := by
          refine escapeWith_eq_nil f t ?_ het
          intro x hx
          rcases hcondt x hx with ⟨hfx, _⟩ | ⟨hfx, _⟩ <;> simp [hfx]
        subst ht
        rfl
      | cons c r =>
        have hc : special c = false := escapeWith_head_not_special f special h92 t hcondt c r het
        rw [unescapeBy, if_neg (by simp [hc])]
        rw [← het, ih hcondt]


/-! ### UTF-8 validity lemmas -/

theorem foldl_utf8step_err : ∀ l : List Nat, l.foldl utf8step .err = .err := by
  intro l
  induction l with
  | nil => rfl
  | cons b rest ih =>
    simp only [List.foldl_cons]
    have h : utf8step .err b = .err := rfl
    rw [h, ih]

theorem utf8step_ok_low (b : Nat) (h : b < 128) : utf8step .ok b = .ok := by
  simp [utf8step, h]

theorem utf8step_low_ne_ok (q : Utf8State) (b : Nat) (h : b < 128) (hq : q ≠ .ok) :
    utf8step q b = .err := by
  cases q with
  | ok => exact absurd rfl hq
  | err => rfl
  | _ => simp [utf8step]; omega

theorem foldl_ascii_ok : ∀ l : List Nat, (∀ c ∈ l, c < 128) → l.foldl utf8step .ok = .ok := by
  intro l
  induction l with
  | nil => intro _; rfl
  | cons b rest ih =>
    intro h
    simp only [List.foldl_cons]
    rw [utf8step_ok_low b (h b (List.mem_cons_self _ _))]
    exact ih (fun c hc => h c (List.mem_cons_of_mem _ hc))

theorem utf8check_of_ascii (l : List Nat) (h : ∀ c ∈ l, c < 128) : utf8check l = true := by
  simp [utf8check, foldl_ascii_ok l h]

theorem utf8check_append (a b : List Nat) (ha : utf8check a = true) (hb : utf8check b = true) :
    utf8check (a ++ b) = true := by
  simp only [utf8check, beq_iff_eq, List.foldl_append] at ha hb ⊢
  rw [ha, hb]

theorem utf8check_cons_low (c : Nat) (l : List Nat) (h : c < 128) :
    utf8check (c :: l) = utf8check l := by
  simp only [utf8check, List.foldl_cons, utf8step_ok_low c h]

theorem escape_preserves_utf8 (f : Nat → List Nat)
    (hlow : ∀ b, b < 128 → ∀ c ∈ f b, c < 128)
    (hhigh : ∀ b, 128 ≤ b → f b = [b]) :
    ∀ s q, s.foldl utf8step q = .ok → (escapeWith f s).foldl utf8step q = .ok := by
  intro s
  induction s with
  | nil => intro q h; exact h
  | cons b rest ih =>
    intro q h
    simp only [List.foldl_cons] at h
    simp only [escapeWith, List.foldl_append]
    by_cases hb : b < 128
    · have hq : q = .ok := by
        by_contra hq
        rw [utf8step_low_ne_ok q b hb hq, foldl_utf8step_err] at h
        exact Utf8State.noConfusion h
      subst hq
      rw [utf8step_ok_low b hb] at h
      rw [foldl_ascii_ok (f b) (hlow b hb)]
      exact ih .ok h
    · rw [hhigh b (by omega)]
      simp only [List.foldl_cons]
      exact ih (utf8step q b) h

theorem utf8_escapeWith (f : Nat → List Nat)
    (hlow : ∀ b, b < 128 → ∀ c ∈ f b, c < 128)
    (hhigh : ∀ b, 128 ≤ b → f b = [b])
    (s : List Nat) (h : utf8check s = true) : utf8check (escapeWith f s) = true := by
  simp only [utf8check, beq_iff_eq] at h ⊢
  exact escape_preserves_utf8 f hlow hhigh s .ok h

theorem utf8_write_escaped_key (k : List Nat) (h : utf8check k = true) :
    utf8check (write_escaped_key k) = true := by
  refine utf8_escapeWith escKeyByte ?_ ?_ k h
  · intro b hb c hc
    simp only [escKeyByte] at hc
    split_ifs at hc <;> simp at hc <;> omega
  · intro b hb
    simp only [escKeyByte]
    rw [if_neg (by omega), if_neg (by omega)]

theorem utf8_write_escaped_tag (t : List Nat) (h : utf8check t = true) :
    utf8check (write_escaped_tag t) = true := by
  refine utf8_escapeWith escTagByte ?_ ?_ t h
  · intro b hb c hc
    simp only [escTagByte] at hc
    split_ifs at hc <;> simp at hc <;> omega
  · intro b hb
    simp only [escTagByte]
    rw [if_neg (by omega), if_neg (by omega), if_neg (by omega)]

theorem utf8_escape_quote (s : List Nat) (h : utf8check s = true) :
    utf8check (escape_quote s) = true := by
  refine utf8_escapeWith escQuoteByte ?_ ?_ s h
  · intro b hb c hc
    simp only [escQuoteByte] at hc
    split_ifs at hc <;> simp at hc <;> omega
  · intro b hb
    simp only [escQuoteByte]
    rw [if_neg (by omega)]

theorem natToDigitsAux_ascii : ∀ fuel n c, c ∈ natToDigitsAux fuel n → c < 128 := by
  intro fuel
  induction fuel with
  | zero => intro n c hc; simp [natToDigitsAux] at hc
  | succ fuel ih =>
    intro n c hc
    simp only [natToDigitsAux] at hc
    by_cases h : n < 10
    · rw [if_pos h] at hc
      simp at hc
      omega
    · rw [if_neg h] at hc
      rcases List.mem_append.mp hc with h' | h'
      · exact ih _ c h'
      · simp at h'
        have : n % 10 < 10 := Nat.mod_lt n (by omega)
        omega

theorem intToBytes_ascii (i : Int) : ∀ c ∈ intToBytes i, c < 128 := by
  intro c hc
  simp only [intToBytes] at hc
  by_cases h : i < 0
  · rw [if_pos h] at hc
    rcases List.mem_cons.mp hc with h' | h'
    · omega
    · exact natToDigitsAux_ascii _ _ c h'
  · rw [if_neg h] at hc
    exact natToDigitsAux_ascii _ _ c hc

theorem floatToBytes_ascii (f : F64) : ∀ c ∈ floatToBytes f, c < 128 := by
  intro c hc
  simp only [floatToBytes] at hc
  by_cases h : f.fracDigits = 0
  · rw [if_pos h] at hc
    exact intToBytes_ascii _ c hc
  · rw [if_neg h] at hc
    rcases List.mem_append.mp hc with h' | h'
    · rcases List.mem_append.mp h' with h2 | h2
      · rcases List.mem_append.mp h2 with h3 | h3
        · rcases List.mem_append.mp h3 with h4 | h4
          · by_cases hm : f.mantissa < 0
            · rw [if_pos hm] at h4; simp at h4; omega
            · rw [if_neg hm] at h4; simp at h4
          · exact natToDigitsAux_ascii _ _ c h4
        · simp at h3; omega
      · have := List.eq_of_mem_replicate h2
        omega
    · exact natToDigitsAux_ascii _ _ c h'

theorem utf8_write_escaped_value (v : Value)
    (h : ∀ s, v = .string s → utf8check s = true) :
    utf8check (write_escaped_value v) = true := by
  cases v with
  | string s =>
    simp only [write_escaped_value]
    rw [utf8check_cons_low 34 _ (by omega)]
    exact utf8check_append _ _ (utf8_escape_quote s (h s rfl)) (utf8check_of_ascii _ (by simp))
  | integer i =>
    simp only [write_escaped_value]
    refine utf8check_of_ascii _ ?_
    intro c hc
    rcases List.mem_append.mp hc with h' | h'
    · exact intToBytes_ascii i c h'
    · simp at h'; omega
  | float f =>
    exact utf8check_of_ascii _ (floatToBytes_ascii f)
  | boolean b =>
    cases b <;> exact utf8check_of_ascii _ (by simp [write_escaped_value])

theorem utf8_tagEntry (tv : List Nat × List Nat)
    (h1 : utf8check tv.1 = true) (h2 : utf8check tv.2 = true) :
    utf8check (tagEntry tv) = true := by
  simp only [tagEntry]
  rw [utf8check_cons_low 44 _ (by omega)]
  refine utf8check_append _ _ (utf8_write_escaped_tag _ h1) ?_
  rw [utf8check_cons_low 61 _ (by omega)]
  exact utf8_write_escaped_tag _ h2

theorem utf8_fieldEntry (fv : List Nat × Value)
    (h1 : utf8check fv.1 = true) (h2 : ∀ s, fv.2 = .string s → utf8check s = true) :
    utf8check (fieldEntry fv) = true := by
  simp only [fieldEntry]
  refine utf8check_append _ _ (utf8_write_escaped_tag _ h1) ?_
  rw [utf8check_cons_low 61 _ (by omega)]
  exact utf8_write_escaped_value _ h2

theorem utf8_tags_flatMap (tags : List (List Nat × List Nat))
    (h : ∀ tv ∈ tags, utf8check tv.1 = true ∧ utf8check tv.2 = true) :
    utf8check (tags.flatMap tagEntry) = true := by
  induction tags with
  | nil => rfl
  | cons tv rest ih =>
    simp only [List.flatMap_cons]
    refine utf8check_append _ _ ?_ (ih (fun x hx => h x (List.mem_cons_of_mem _ hx)))
    have := h tv (List.mem_cons_self _ _)
    exact utf8_tagEntry tv this.1 this.2

theorem utf8_fieldsPart (fields : List (List Nat × Value))
    (h : ∀ fv ∈ fields, utf8check fv.1 = true ∧ ∀ s, fv.2 = .string s → utf8check s = true) :
    utf8check (fieldsPart fields) = true := by
  cases fields with
  | nil => rfl
  | cons fv rest =>
    simp only [fieldsPart]
    rw [utf8check_cons_low 32 _ (by omega)]
    have hfv := h fv (List.mem_cons_self _ _)
    refine utf8check_append _ _ (utf8_fieldEntry fv hfv.1 hfv.2) ?_
    clear hfv
    induction rest with
    | nil => rfl
    | cons fv2 rest2 ih2 =>
      simp only [List.flatMap_cons]
      have hfv2 := h fv2 (List.mem_cons_of_mem _ (List.mem_cons_self _ _))
      refine utf8check_append _ _ ?_ ?_
      · rw [show (44 :: fieldEntry fv2 : List Nat) = [44] ++ fieldEntry fv2 from rfl]
        exact utf8check_append _ _ (by decide) (utf8_fieldEntry fv2 hfv2.1 hfv2.2)
      · refine ih2 ?_
        intro x hx
        rcases List.mem_cons.mp hx with h' | h'
        · exact h x (by rw [h']; exact List.mem_cons_self _ _)
        · exact h x (List.mem_cons_of_mem _ (List.mem_cons_of_mem _ h'))

theorem utf8_tsPart (ts : Option Int) : utf8check (tsPart ts) = true := by
  cases ts with
  | none => rfl
  | some t =>
    simp only [tsPart]
    rw [utf8check_cons_low 32 _ (by omega)]
    exact utf8check_of_ascii _ (intToBytes_ascii t)

/-- Validity of the whole buffer, given valid inputs. -/
theorem utf8_serialize_buf (m : Measurement)
    (hkey : utf8check m.key = true)
    (htags : ∀ tv ∈ m.tags, utf8check tv.1 = true ∧ utf8check tv.2 = true)
    (hfields : ∀ fv ∈ m.fields, utf8check fv.1 = true ∧
      ∀ s, fv.2 = .string s → utf8check s = true) :
    utf8check (serialize_buf m) = true := by
  rw [serialize_buf_eq]
  refine utf8check_append _ _ (utf8check_append _ _ (utf8check_append _ _ ?_ ?_) ?_) ?_
  · exact utf8_write_escaped_key _ hkey
  · exact utf8_tags_flatMap _ htags
  · exact utf8_fieldsPart _ hfields
  · exact utf8_tsPart _

/-! ### Lookup behaviour of `insertSorted` -/

theorem lookup_insertSorted_self (k : List Nat) (v : α) :
    ∀ l, lookup k (insertSorted k v l) = some v := by
  intro l
  induction l with
  | nil => simp [insertSorted, lookup]
  | cons hd rest ih =>
    obtain ⟨k', v'⟩ := hd
    simp only [insertSorted]
    by_cases h1 : bytesLt k k' = true
    · rw [if_pos h1]; simp [lookup]
    · rw [if_neg h1]
      by_cases h2 : k = k'
      · rw [if_pos h2]; simp [lookup]
      · rw [if_neg h2]
        simp only [lookup, if_neg h2]
        exact ih

theorem lookup_insertSorted_other (k : List Nat) (v : α) (n : List Nat) (hne : n ≠ k) :
    ∀ l, lookup n (insertSorted k v l) = lookup n l := by
  intro l
  induction l with
  | nil => simp [insertSorted, lookup, hne]
  | cons hd rest ih =>
    obtain ⟨k', v'⟩ := hd
    simp only [insertSorted]
    by_cases h1 : bytesLt k k' = true
    · rw [if_pos h1]
      simp only [lookup, if_neg hne]
    · rw [if_neg h1]
      by_cases h2 : k = k'
      · rw [if_pos h2]
        subst h2
        simp [lookup, hne]
      · rw [if_neg h2]
        simp only [lookup]
        by_cases h3 : n = k'
        · rw [if_pos h3, if_pos h3]
        · rw [if_neg h3, if_neg h3]
          exact ih

theorem nodup_keys_of_sorted {l : List (List Nat × α)} (h : SortedKeys l) :
    (l.map Prod.fst).Nodup := by
  have h' : l.Pairwise (fun p q => bytesLt p.1 q.1 = true) := h
  rw [List.Nodup, List.pairwise_map]
  refine h'.imp ?_
  intro a b hlt heq
  rw [heq] at hlt
  rw [bytesLt_irrefl] at hlt
  exact Bool.noConfusion hlt

/-- Decidable form of "any text inside this value is valid UTF-8": only a
`Value::String` carries text. -/
def valueTextUtf8 : Value → Bool
  | .string s => utf8check s
  | _ => true

/-! ### The claims -/

/-- C2: encoding the measurement with key `key`, tag `tag=value`, fields
`s=String("string")`, `i=Integer(10)`, `f=Float(10.0)`, `b=Boolean(false)`
and timestamp 10 yields exactly
`key,tag=value b=f,f=10,i=10i,s="string" 10`: fields in ascending name
order, the float rendered as `10` with no suffix, the integer as `10i`,
the boolean as `f`. -/
theorem C2_example_line :
    serialize (set_timestamp (add_tag (add_field (add_field (add_field (add_field
        (Measurement.new (str ("key")))
        (str ("s")) (.string (str ("string"))))
        (str ("i")) (.integer 10))
        (str ("f")) (.float ⟨10, 0⟩))
        (str ("b")) (.boolean false))
        (str ("tag")) (str ("value"))) 10) =
      some (str ("key,tag=value b=f,f=10,i=10i,s=\"string\" 10")) := by
  decide

/-- C3: the tag/field-name and tag-value escaping profile maps `,` to
`\,`, space to `\ `, and `=` to the same two-character `\ ` sequence (not
`\=`), leaves every other byte unchanged, and is the profile the
serializer applies to tag names, tag values and field names. -/
theorem C3_tag_escape_profile :
    write_escaped_tag [44] = [92, 44] ∧
    write_escaped_tag [32] = [92, 32] ∧
    write_escaped_tag [61] = [92, 32] ∧
    (∀ b, b ≠ 44 → b ≠ 32 → b ≠ 61 → write_escaped_tag [b] = [b]) ∧
    (∀ s t, write_escaped_tag (s ++ t) = write_escaped_tag s ++ write_escaped_tag t) ∧
    (∀ (key n v fname : List Nat) (fval : Value) (ts : Option Int),
      serialize_buf ⟨key, ts, [(fname, fval)], [(n, v)]⟩ =
        write_escaped_key key ++
          (44 :: (write_escaped_tag n ++ 61 :: write_escaped_tag v)) ++
          (32 :: (write_escaped_tag fname ++ 61 :: write_escaped_value fval)) ++
          tsPart ts) := by
  refine ⟨rfl, rfl, rfl, ?_, escapeWith_append escTagByte, ?_⟩
  · intro b h44 h32 h61
    simp [write_escaped_tag, escapeWith, escTagByte, h44, h32, h61]
  · intro key n v fname fval ts
    rw [serialize_buf_eq]
    simp [tagEntry, fieldEntry, fieldsPart, List.append_assoc]

theorem C3_witness : write_escaped_tag [120] = [120] :=
  C3_tag_escape_profile.2.2.2.1 120 (by decide) (by decide) (by decide)

/-- C7: the measurement-key escaping profile maps `,` to `\,` and space to
`\ `, leaves every other byte unchanged, and encodes the key `a,b` as
the segment `a\,b`. -/
theorem C7_key_escape_profile :
    write_escaped_key [44] = [92, 44] ∧
    write_escaped_key [32] = [92, 32] ∧
    (∀ b, b ≠ 44 → b ≠ 32 → write_escaped_key [b] = [b]) ∧
    (∀ s t, write_escaped_key (s ++ t) = write_escaped_key s ++ write_escaped_key t) ∧
    write_escaped_key (str ("a,b")) = str ("a\\,b") := by
  refine ⟨rfl, rfl, ?_, escapeWith_append escKeyByte, by decide⟩
  · intro b h44 h32
    simp [write_escaped_key, escapeWith, escKeyByte, h44, h32]

theorem C7_witness : write_escaped_key [97] = [97] :=
  C7_key_escape_profile.2.2.1 97 (by decide) (by decide)

/-- C8: a `String` field value is formatted as a double quote, the text
with every `"` replaced by `\"` and no other byte touched (commas, spaces
and equals signs pass through), and a closing double quote; the tag/key
profile is never applied to it. -/
theorem C8_string_value_escape :
    (∀ s, write_escaped_value (.string s) = 34 :: (escape_quote s ++ [34])) ∧
    escape_quote [34] = [92, 34] ∧
    (∀ b, b ≠ 34 → escape_quote [b] = [b]) ∧
    (∀ s t, escape_quote (s ++ t) = escape_quote s ++ escape_quote t) ∧
    write_escaped_value (.string [44, 32, 61]) = [34, 44, 32, 61, 34] := by
  refine ⟨fun s => rfl, rfl, ?_, escapeWith_append escQuoteByte, by decide⟩
  · intro b h34
    simp [escape_quote, escapeWith, escQuoteByte, h34]

theorem C8_witness : escape_quote [97] = [97] :=
  C8_string_value_escape.2.2.1 97 (by decide)

/-- C4 counterexample: the tag/field-name and tag-value profile sends both
`=` (61) and space (32) to the same output `\ `, so no un-escaper can
recover both; the profile is not injective and the round-trip fails for
text containing `=`. -/
theorem C4_counterexample :
    ¬ ∃ u : List Nat → List Nat,
        u (write_escaped_tag [61]) = [61] ∧ u (write_escaped_tag [32]) = [32] := by
  rintro ⟨u, h1, h2⟩
  have he : write_escaped_tag [61] = write_escaped_tag [32] := by decide
  rw [he, h2] at h1
  exact absurd h1 (by decide)

/-- C4 (amended): the measurement-key profile and the string-value
quote-escaping profile are reversible on all text; the tag/field-name and
tag-value profile is reversible exactly on text containing no `=`
(escaping maps `=` and space to the same bytes, so `=` cannot be
recovered). -/
theorem C4_escape_roundtrip :
    (∀ s, unescape_key (write_escaped_key s) = s) ∧
    (∀ s, unescape_quote (escape_quote s) = s) ∧
    (∀ s, 61 ∉ s → unescape_tag (write_escaped_tag s) = s) := by
  refine ⟨?_, ?_, ?_⟩
  · intro s
    refine unescapeBy_escapeWith escKeyByte keySpecial (by decide) s ?_
    intro b _
    by_cases h44 : b = 44
    · subst h44; exact Or.inl ⟨rfl, by decide⟩
    · by_cases h32 : b = 32
      · subst h32; exact Or.inl ⟨rfl, by decide⟩
      · exact Or.inr ⟨by simp [escKeyByte, h44, h32], by simp [keySpecial, h44, h32]⟩
  · intro s
    refine unescapeBy_escapeWith escQuoteByte quoteSpecial (by decide) s ?_
    intro b _
    by_cases h34 : b = 34
    · subst h34; exact Or.inl ⟨rfl, by decide⟩
    · exact Or.inr ⟨by simp [escQuoteByte, h34], by simp [quoteSpecial, h34]⟩
  · intro s hs
    refine unescapeBy_escapeWith escTagByte keySpecial (by decide) s ?_
    intro b hb
    have h61 : b ≠ 61 := fun h => hs (h ▸ hb)
    by_cases h44 : b = 44
    · subst h44; exact Or.inl ⟨rfl, by decide⟩
    · by_cases h32 : b = 32
      · subst h32; exact Or.inl ⟨rfl, by decide⟩
      · exact Or.inr ⟨by simp [escTagByte, h44, h32, h61], by simp [keySpecial, h44, h32]⟩

theorem C4_witness : unescape_tag (write_escaped_tag [92, 44, 32, 97]) = [92, 44, 32, 97] :=
  C4_escape_roundtrip.2.2 [92, 44, 32, 97] (by decide)

/-- C5 counterexample: a measurement with an empty field set encodes with
no space byte at all (the space is written together with the first field),
so the separating space is not emitted unconditionally for every
Measurement. -/
theorem C5_counterexample :
    (serialize_buf (Measurement.new (str ("key")))).count 32 = 0 := by
  decide

/-- C5 (amended): for every Measurement with at least one field the output
is the escaped key, the tag section (entirely omitted with no stray
leading comma when the tag set is empty), exactly one separating space
marking the start of the field section — never emitted before tags — the
comma-joined fields, and the optional timestamp section; with zero fields
no separating space is emitted. -/
theorem C5_single_space_before_fields :
    ∀ (m : Measurement) (fv : List Nat × Value) (rest : List (List Nat × Value)),
      m.fields = fv :: rest →
      serialize_buf m =
        write_escaped_key m.key ++ m.tags.flatMap tagEntry ++
          32 :: (fieldEntry fv ++ rest.flatMap (fun x => 44 :: fieldEntry x)) ++
          tsPart m.timestamp ∧
      (m.tags = [] →
        serialize_buf m =
          write_escaped_key m.key ++
            32 :: (fieldEntry fv ++ rest.flatMap (fun x => 44 :: fieldEntry x)) ++
            tsPart m.timestamp) := by
  intro m fv rest hf
  constructor
  · rw [serialize_buf_eq, hf]
    simp [fieldsPart, List.append_assoc]
  · intro ht
    rw [serialize_buf_eq, hf, ht]
    simp [fieldsPart, List.append_assoc]

theorem C5_witness :
    serialize_buf (add_field (Measurement.new (str ("key"))) (str ("f")) (.integer 1)) =
      write_escaped_key (add_field (Measurement.new (str ("key"))) (str ("f")) (.integer 1)).key ++
        32 :: (fieldEntry (str ("f"), .integer 1) ++
          ([] : List (List Nat × Value)).flatMap (fun x => 44 :: fieldEntry x)) ++
        tsPart (add_field (Measurement.new (str ("key"))) (str ("f")) (.integer 1)).timestamp :=
  (C5_single_space_before_fields _ (str ("f"), .integer 1) [] (by decide)).2 (by decide)

/-- C6: a present timestamp is emitted as one space followed by its exact
decimal text, computed by integer — not floating-point — arithmetic, and
nothing is emitted after the field section when no timestamp is set; the
19-digit timestamp 1434055562000000000 is preserved exactly. -/
theorem C6_timestamp_emission :
    (∀ (m : Measurement) (ts : Int),
      serialize_buf { m with timestamp := some ts } =
        serialize_buf { m with timestamp := none } ++ 32 :: intToBytes ts) ∧
    serialize (set_timestamp (add_field (Measurement.new (str ("key")))
        (str ("s")) (.string (str ("string")))) 1434055562000000000) =
      some (str ("key s=\"string\" 1434055562000000000")) := by
  constructor
  · intro m ts
    rw [serialize_buf_eq, serialize_buf_eq]
    simp [tsPart, List.append_assoc]
  · decide

/-- C9: for every Measurement whose key, tag names/values, field names and
string field values are valid UTF-8, the accumulated byte sequence is
valid UTF-8 and the re-decoding in `serialize`
(`String::from_utf8(..).unwrap()`) cannot fail: the escapers rewrite only
single ASCII bytes and copy every other byte unchanged. -/
theorem C9_serialize_total_utf8 :
    ∀ m : Measurement,
      utf8check m.key = true →
      (∀ tv ∈ m.tags, utf8check tv.1 = true ∧ utf8check tv.2 = true) →
      (∀ fv ∈ m.fields, utf8check fv.1 = true ∧ valueTextUtf8 fv.2 = true) →
      utf8check (serialize_buf m) = true ∧ serialize m = some (serialize_buf m) := by
  intro m hk ht hf
  have hf' : ∀ fv ∈ m.fields, utf8check fv.1 = true ∧
      ∀ s, fv.2 = .string s → utf8check s = true := by
    intro fv hfv
    refine ⟨(hf fv hfv).1, ?_⟩
    intro s hs
    have h2 := (hf fv hfv).2
    rw [hs] at h2
    simpa [valueTextUtf8] using h2
  have h := utf8_serialize_buf m hk ht hf'
  exact ⟨h, by simp [serialize, h]⟩

theorem C9_witness :
    serialize (add_tag (add_field (Measurement.new (str ("k")))
        (str ("f")) (.string (str ("v")))) (str ("t")) (str ("w"))) =
      some (serialize_buf (add_tag (add_field (Measurement.new (str ("k")))
        (str ("f")) (.string (str ("v")))) (str ("t")) (str ("w")))) :=
  (C9_serialize_total_utf8 _ (by decide) (by decide) (by decide)).2

/-- C10: `add_field` with an already-present field name replaces the
stored value (last write wins) and `add_tag` likewise; any built
measurement holds exactly one entry per distinct name; and the calls leave
the key, the timestamp and the other map untouched. -/
theorem C10_add_replaces_and_frames :
    (∀ (m : Measurement) (n : List Nat) (v : Value),
      (add_field m n v).key = m.key ∧
      (add_field m n v).timestamp = m.timestamp ∧
      (add_field m n v).tags = m.tags ∧
      lookup n (add_field m n v).fields = some v ∧
      (∀ n', n' ≠ n → lookup n' (add_field m n v).fields = lookup n' m.fields)) ∧
    (∀ (m : Measurement) (n v : List Nat),
      (add_tag m n v).key = m.key ∧
      (add_tag m n v).timestamp = m.timestamp ∧
      (add_tag m n v).fields = m.fields ∧
      lookup n (add_tag m n v).tags = some v ∧
      (∀ n', n' ≠ n → lookup n' (add_tag m n v).tags = lookup n' m.tags)) ∧
    (∀ (key : List Nat) (ops : List Op),
      ((build key ops).fields.map Prod.fst).Nodup ∧
      ((build key ops).tags.map Prod.fst).Nodup) := by
  refine ⟨?_, ?_, ?_⟩
  · intro m n v
    exact ⟨rfl, rfl, rfl, lookup_insertSorted_self n v m.fields,
      fun n' hne => lookup_insertSorted_other n v n' hne m.fields⟩
  · intro m n v
    exact ⟨rfl, rfl, rfl, lookup_insertSorted_self n v m.tags,
      fun n' hne => lookup_insertSorted_other n v n' hne m.tags⟩
  · intro key ops
    have h := sortedKeys_build key ops
    exact ⟨nodup_keys_of_sorted h.1, nodup_keys_of_sorted h.2⟩

theorem C10_witness :
    lookup (str ("a"))
      (add_field (add_field (Measurement.new (str ("k"))) (str ("a")) (.integer 1))
        (str ("b")) (.integer 2)).fields = some (.integer 1) := by
  have h := (C10_add_replaces_and_frames.1
    (add_field (Measurement.new (str ("k"))) (str ("a")) (.integer 1))
    (str ("b")) (.integer 2)).2.2.2.2 (str ("a")) (by decide)
  rw [h]
  decide

/-- C1: any two Measurements with the same key, the same timestamp and the
same tag and field contents (as sets of name/value pairs, whatever the
insertion order) encode to byte-identical output, and the maps every built
measurement carries are strictly ascending in byte-lexicographic name
order, which is the order tags and fields are emitted in. -/
theorem C1_encode_order_independent :
    (∀ (key : List Nat) (ops : List Op),
      SortedKeys (build key ops).fields ∧ SortedKeys (build key ops).tags) ∧
    (∀ m1 m2 : Measurement,
      SortedKeys m1.fields → SortedKeys m2.fields →
      SortedKeys m1.tags → SortedKeys m2.tags →
      m1.key = m2.key → m1.timestamp = m2.timestamp →
      (∀ p, p ∈ m1.fields ↔ p ∈ m2.fields) →
      (∀ q, q ∈ m1.tags ↔ q ∈ m2.tags) →
      serialize_buf m1 = serialize_buf m2) := by
  refine ⟨sortedKeys_build, ?_⟩
  intro m1 m2 hf1 hf2 ht1 ht2 hkey hts hfm htm
  have hf : m1.fields = m2.fields := sorted_eq_of_mem_iff hf1 hf2 hfm
  have ht : m1.tags = m2.tags := sorted_eq_of_mem_iff ht1 ht2 htm
  have hm : m1 = m2 := by
    cases m1
    cases m2
    simp_all
  rw [hm]

theorem C1_witness :
    serialize_buf (build (str ("key"))
      [.addField (str ("b")) (.integer 1), .addField (str ("a")) (.boolean true),
       .addTag (str ("t")) (str ("v")), .setTs 7]) =
    serialize_buf (build (str ("key"))
      [.addTag (str ("t")) (str ("v")), .setTs 7,
       .addField (str ("a")) (.boolean true), .addField (str ("b")) (.integer 1)]) :=
  C1_encode_order_independent.2 _ _
    (sortedKeys_build _ _).1 (sortedKeys_build _ _).1
    (sortedKeys_build _ _).2 (sortedKeys_build _ _).2
    rfl rfl (fun _ => Iff.rfl) (fun _ => Iff.rfl)

end Influent
